import Mathlib

/-!
Verification of the frame-indexed box query core of the
visualize_yolo_results repository.

The embedding follows `app.py` (the authoritative implementation of the
query endpoints, the view cache `_ensure_view`, and the video catalog
`_get_video_list`) and `src/routes.py` (the `boxes_range` endpoint).
A per-video detection table is a `List (Detection α)`; the DuckDB queries
issued by the endpoints are declarative filters/aggregates over that table
and are embedded by their relational semantics (filter, sort, group, min,
max).  Strings are handled through their character lists, so that every
definition evaluates on concrete inputs.
-/

/-- One detection row `(frame, box_index, x, y, width, height)` of a
per-video parquet table.  `frame` and `box_index` are read as SQL
`INTEGER`s and are non-negative by the data model; the geometric payload
`x, y, width, height` is carried through every query untouched, so it is
kept at an abstract type `α`. -/
structure Detection (α : Type) where
  frame : Nat
  box_index : Nat
  x : α
  y : α
  width : α
  height : α
  deriving DecidableEq

variable {α : Type}

/-- `FPS = 24.0` in `app.py`.  The timeline query computes
`CAST(FLOOR(frame / 24.0) AS INTEGER)`; for every value of the 32-bit
`frame::INTEGER` column the double-precision quotient `frame / 24.0` has
rounding error far below the distance `≥ 1/24` from the true quotient to
the next integer, so its floor equals exact integer division by 24 and the
embedding uses `Nat` division. -/
def FPS : Nat := 24

/-- `CAST(FLOOR(frame / FPS) AS INTEGER)` of the timeline query. -/
def secOf (d : Detection α) : Nat := d.frame / FPS

/-- `CAST(FLOOR(sec / bin_sec) AS INTEGER)` of the timeline query
(DuckDB `/` on integers is double division, floored exactly here). -/
def binOf (k : Nat) (d : Detection α) : Nat := secOf d / k

/-- `COUNT(*)` of the rows of bin `i` in the timeline grouping. -/
def countInBin (t : List (Detection α)) (k i : Nat) : Nat :=
  (t.filter (fun d => binOf k d == i)).length

/-- The largest bin of any row of the table (`0` for an empty table). -/
def maxBin (t : List (Detection α)) (k : Nat) : Nat :=
  (t.map (binOf k)).foldr max 0

/-- Relational semantics of `SELECT bin, COUNT(*) ... GROUP BY bin ORDER BY
bin` in `api_timeline`: the pairs `(bin, count)` of the occupied bins, in
ascending bin order. -/
def groupedRows (t : List (Detection α)) (k : Nat) : List (Nat × Nat) :=
  (List.range (maxBin t k + 1)).filterMap (fun i =>
    if countInBin t k i = 0 then none else some (i, countInBin t k i))

/-- The dense-fill step of `api_timeline`: `if not rows: return []`, then
`max_bin = rows[-1][0]`, `counts = [0] * (max_bin + 1)` and
`counts[b] = cnt` for every grouped row `(b, cnt)`.  Because the grouped
bins are distinct, the fill loop leaves `counts[i]` at the count grouped
for bin `i`, or at `0` when bin `i` is not occupied. -/
def timelineCounts (t : List (Detection α)) (k : Nat) : List Nat :=
  match (groupedRows t k).getLast? with
  | none => []
  | some r => (List.range (r.1 + 1)).map (fun i =>
      (List.lookup i (groupedRows t k)).getD 0)

/-- `ORDER BY box_index` of `api_boxes`. -/
def boxLe (a b : Detection α) : Prop := a.box_index ≤ b.box_index

instance : DecidableRel (@boxLe α) :=
  fun a b => Nat.decLe a.box_index b.box_index

/-- `ORDER BY frame, box_index` (the order of the range query of §4.1). -/
def lexLe (a b : Detection α) : Prop :=
  a.frame < b.frame ∨ (a.frame = b.frame ∧ a.box_index ≤ b.box_index)

instance : DecidableRel (@lexLe α) := fun a b => by
  unfold lexLe
  infer_instance

/-- `api_boxes` body: `SELECT x, y, width, height, box_index FROM view
WHERE frame = ? ORDER BY box_index`.  `ORDER BY` is embedded as a sort of
the filtered rows. -/
def pointQuery (t : List (Detection α)) (f : Nat) : List (Detection α) :=
  List.insertionSort boxLe (t.filter (fun d => d.frame == f))

/-- `api_next_hit` body: `SELECT MIN(frame) FROM view WHERE frame > ?`;
the SQL `MIN` aggregate of an empty selection is `NULL`, embedded as
`List.min?` of the selected frames. -/
def nextHit (t : List (Detection α)) (f : Nat) : Option Nat :=
  ((t.filter (fun d => decide (f < d.frame))).map (fun d => d.frame)).min?

/-- `api_prev_hit` body: `SELECT MAX(frame) FROM view WHERE frame < ?`. -/
def prevHit (t : List (Detection α)) (f : Nat) : Option Nat :=
  ((t.filter (fun d => decide (d.frame < f))).map (fun d => d.frame)).max?

/-- `startFrame <= frame <= endFrame`, the selection of the range query. -/
def inRange (a b : Nat) (d : Detection α) : Bool :=
  decide (a ≤ d.frame) && decide (d.frame ≤ b)

/-- Modelled from the spec: `query_boxes_range`, called by
`api_boxes_range` in `src/routes.py`, lives in `src/db.py`, which is not
among the sources.  §4.1: "rangeQuery(startFrame, endFrame) -> ordered
sequence of Detection covering all frames with startFrame <= frame <=
endFrame inclusive, ordered by (frame, box_index) ascending". -/
def rangeQuery (t : List (Detection α)) (a b : Nat) : List (Detection α) :=
  List.insertionSort lexLe (t.filter (inRange a b))

/-- The literal prefix of `f"v_{video_id}"`. -/
def vPrefix : String := "v_"

/-- The character replacement of `.replace("-", "_").replace(".", "_")`:
both replacements are single-character, so their composition is one
character map. -/
def replCh (c : Char) : Char := if c = '-' ∨ c = '.' then '_' else c

/-- The view name `f"v_{video_id}".replace("-", "_").replace(".", "_")`
derived by `_ensure_view`. -/
def viewName (vid : String) : String := ⟨(vPrefix ++ vid).data.map replCh⟩

/-- A video id after replacing every `-` and `.` character with `_`
(used to state the collision claim about `viewName`). -/
def normId (s : String) : String := ⟨s.data.map replCh⟩

/-- The parquet file name `f"{video_id}.parquet"` looked up by
`_ensure_view` (the constant directory prefix is dropped). -/
def pqName (vid : String) : String := vid ++ ".parquet"

/-- The process-wide cache `_video_cache : video_id -> (parquet_path,
view_name)`, embedded as an association list (new entries in front; keys
are inserted at most once, so lookup agrees with the Python dict). -/
abbrev Cache : Type := List (String × (String × String))

/-- `_ensure_view` of `app.py`, as a function of the cache and of the
existence predicate `boxes` of the parquet files on disk: a cache hit
returns the stored view name; otherwise a missing parquet file raises 404
(`none`) and leaves the cache unchanged, and an existing one creates the
view and caches `(parquet_path, view_name)`. -/
def _ensure_view (boxes : String → Bool) (cache : Cache) (vid : String) :
    Option String × Cache :=
  match List.lookup vid cache with
  | some e => (some e.2, cache)
  | none =>
    if boxes vid then
      (some (viewName vid), (vid, (pqName vid, viewName vid)) :: cache)
    else (none, cache)

/-- The boundary failure taxonomy of §7: FastAPI rejects an out-of-range
query parameter with 422 before the handler body runs
(`InvalidArgument`), and `_ensure_view` raises 404 (`NotFound`). -/
inductive ApiError : Type where
  | invalidArgument : ApiError
  | notFound : ApiError
  deriving DecidableEq

/-- `GET /api/videos/{video_id}/boxes?frame=...` with
`frame: int = Query(..., ge=0)`: the `ge=0` validation runs before the
handler, then the handler resolves the view and runs `pointQuery`. -/
def api_boxes (boxes : String → Bool) (data : String → List (Detection α))
    (cache : Cache) (vid : String) (frame : Int) :
    Except ApiError (List (Detection α)) × Cache :=
  if frame < 0 then (Except.error ApiError.invalidArgument, cache)
  else
    match _ensure_view boxes cache vid with
    | (some _, c) => (Except.ok (pointQuery (data vid) frame.toNat), c)
    | (none, c) => (Except.error ApiError.notFound, c)

/-- `GET /api/videos/{video_id}/timeline?bin_sec=...` with
`bin_sec: int = Query(1, ge=1, le=60)`: an omitted `bin_sec` defaults to
`1`, a supplied one is validated against `[1, 60]` before the handler;
the handler resolves the view and returns `{bin_sec, counts}`. -/
def api_timeline (boxes : String → Bool)
    (data : String → List (Detection α)) (cache : Cache) (vid : String)
    (bin : Option Int) : Except ApiError (Int × List Nat) × Cache :=
  if bin.getD 1 < 1 ∨ 60 < bin.getD 1 then
    (Except.error ApiError.invalidArgument, cache)
  else
    match _ensure_view boxes cache vid with
    | (some _, c) =>
      (Except.ok (bin.getD 1, timelineCounts (data vid) (bin.getD 1).toNat), c)
    | (none, c) => (Except.error ApiError.notFound, c)

/-- `GET /api/videos/{video_id}/next_hit?frame=...` with
`frame: int = Query(..., ge=0)`. -/
def api_next_hit (boxes : String → Bool)
    (data : String → List (Detection α)) (cache : Cache) (vid : String)
    (frame : Int) : Except ApiError (Option Nat) × Cache :=
  if frame < 0 then (Except.error ApiError.invalidArgument, cache)
  else
    match _ensure_view boxes cache vid with
    | (some _, c) => (Except.ok (nextHit (data vid) frame.toNat), c)
    | (none, c) => (Except.error ApiError.notFound, c)

/-- `GET /api/videos/{video_id}/prev_hit?frame=...` with
`frame: int = Query(..., ge=0)`. -/
def api_prev_hit (boxes : String → Bool)
    (data : String → List (Detection α)) (cache : Cache) (vid : String)
    (frame : Int) : Except ApiError (Option Nat) × Cache :=
  if frame < 0 then (Except.error ApiError.invalidArgument, cache)
  else
    match _ensure_view boxes cache vid with
    | (some _, c) => (Except.ok (prevHit (data vid) frame.toNat), c)
    | (none, c) => (Except.error ApiError.notFound, c)

/-- Python string comparison on character lists: lexicographic by Unicode
code point (`Char <` in Lean is exactly code-point order). -/
def charListLe : List Char → List Char → Bool
  | [], _ => true
  | _ :: _, [] => false
  | a :: as, b :: bs =>
    if a < b then true else if b < a then false else charListLe as bs

/-- Python `<=` on strings, used by `sorted`. -/
def pyLe (a b : String) : Prop := charListLe a.data b.data = true

instance : DecidableRel pyLe :=
  fun _ _ => inferInstanceAs (Decidable (_ = true))

/-- The glob suffix: `glob("*.mp4")` matches exactly the names ending in
`".mp4"` (case-sensitively). -/
def mp4Ext : String := ".mp4"

/-- `glob("*.mp4")` membership for one name: the name ends in `".mp4"`
(the suffix test is done on the character lists so that it evaluates). -/
def matchesMp4 (s : String) : Bool := List.isSuffixOf mp4Ext.data s.data

/-- The character list of a name minus its last four characters. -/
def stemData (l : List Char) : List Char := l.take (l.length - 4)

/-- Python `Path.stem` on a name matched by `glob("*.mp4")`: the name
minus the final `".mp4"`, except that the bare name `".mp4"` is a
dot-file without a suffix and is its own stem. -/
def stem (s : String) : String :=
  if stemData s.data = [] then s else ⟨stemData s.data⟩

/-- One element of the `api_videos` response. -/
structure VideoEntry where
  video_id : String
  file : String
  url : String
  fps : Nat
  deriving DecidableEq

/-- The literal prefix of `f"/videos/{p.name}"`. -/
def urlPrefix : String := "/videos/"

/-- `_get_video_list` of `app.py` over a directory state: `dirExists` is
`VIDEOS_DIR.exists()` and `names` the file names in the directory.
`sorted(VIDEOS_DIR.glob("*.mp4"))` sorts the matched paths; the paths
differ only in their final component, so Python path order is Python
string order of the file names. -/
def _get_video_list (dirExists : Bool) (names : List String) :
    List VideoEntry :=
  if dirExists then
    (List.insertionSort pyLe (names.filter matchesMp4)).map
      (fun n => ⟨stem n, n, urlPrefix ++ n, FPS⟩)
  else []

instance : IsTotal (Detection α) boxLe :=
  ⟨fun a b => Nat.le_total a.box_index b.box_index⟩

instance : IsTrans (Detection α) boxLe :=
  ⟨fun _ _ _ => Nat.le_trans⟩

instance : IsTotal (Detection α) lexLe := ⟨fun a b => by
  unfold lexLe
  omega⟩

instance : IsTrans (Detection α) lexLe := ⟨fun a b c h1 h2 => by
  unfold lexLe at h1 h2 ⊢
  omega⟩

/-- The concrete scenario table of §8 of the spec:
`[(frame=5, box=0), (frame=5, box=1), (frame=10, box=0)]`. -/
def egTable : List (Detection Unit) :=
  [⟨5, 0, (), (), (), ()⟩, ⟨5, 1, (), (), (), ()⟩, ⟨10, 0, (), (), (), ()⟩]

/-- Concrete identifiers and file names used to instantiate theorems. -/
def vidA : String := "a"

def exDash : String := "a-b"

def exDot : String := "a.b"

def nameA : String := "a.mp4"

def nameBang : String := "a!.mp4"

def nameAvi : String := "b.avi"

def idA : String := "a"

def idBang : String := "a!"

/-! ## Helper lemmas -/

theorem insertionSort_eq_nil_iff (r : Detection α → Detection α → Prop)
    [DecidableRel r] (l : List (Detection α)) :
    List.insertionSort r l = [] ↔ l = [] := by
  constructor
  · intro h
    have hp := List.perm_insertionSort r l
    rw [h] at hp
    exact hp.symm.eq_nil
  · intro h
    rw [h]
    rfl

theorem mem_pointQuery_iff {t : List (Detection α)} {f : Nat}
    {d : Detection α} : d ∈ pointQuery t f ↔ d ∈ t ∧ d.frame = f := by
  unfold pointQuery
  rw [(List.perm_insertionSort boxLe _).mem_iff, List.mem_filter]
  simp

/-! ## C2: point query -/

/-- C2: for every table and every frame, `pointQuery` returns exactly the
detection rows whose `frame` column equals the given frame, ordered by
ascending `box_index`, and its result is empty iff no detection row has
that frame. -/
theorem point_query_spec (t : List (Detection α)) (f : Nat) :
    (pointQuery t f).Perm (t.filter (fun d => d.frame == f)) ∧
    List.Sorted boxLe (pointQuery t f) ∧
    (pointQuery t f = [] ↔ ∀ d ∈ t, d.frame ≠ f) := by
  refine ⟨List.perm_insertionSort boxLe _, List.sorted_insertionSort boxLe _, ?_⟩
  unfold pointQuery
  rw [insertionSort_eq_nil_iff, List.filter_eq_nil_iff]
  simp

/-! ## C3: next/prev hit -/

/-- C3: `nextHit` returns the smallest frame strictly greater than the
input that has at least one detection (`none`, not an error, when no such
frame exists), and `prevHit` symmetrically returns the largest frame
strictly less than the input with a detection. -/
theorem next_prev_hit_spec (t : List (Detection α)) (f : Nat) :
    (∀ m, nextHit t f = some m ↔
      f < m ∧ (∃ d ∈ t, d.frame = m) ∧
        ∀ d ∈ t, f < d.frame → m ≤ d.frame) ∧
    (nextHit t f = none ↔ ∀ d ∈ t, d.frame ≤ f) ∧
    (∀ m, prevHit t f = some m ↔
      m < f ∧ (∃ d ∈ t, d.frame = m) ∧
        ∀ d ∈ t, d.frame < f → d.frame ≤ m) ∧
    (prevHit t f = none ↔ ∀ d ∈ t, f ≤ d.frame) := by
  refine ⟨?_, ?_, ?_, ?_⟩
  · intro m
    unfold nextHit
    rw [List.min?_eq_some_iff']
    simp only [List.mem_map, List.mem_filter, decide_eq_true_eq]
    constructor
    · rintro ⟨⟨d, ⟨hd, hlt⟩, hm⟩, hbound⟩
      subst hm
      exact ⟨hlt, ⟨d, hd, rfl⟩,
        fun e he hlt2 => hbound e.frame ⟨e, ⟨he, hlt2⟩, rfl⟩⟩
    · rintro ⟨hfm, ⟨d, hd, hm⟩, hbound⟩
      subst hm
      exact ⟨⟨d, ⟨hd, hfm⟩, rfl⟩,
        fun b hb => by
          obtain ⟨e, ⟨he, hlt⟩, hm⟩ := hb
          subst hm
          exact hbound e he hlt⟩
  · unfold nextHit
    rw [List.min?_eq_none_iff, List.map_eq_nil_iff, List.filter_eq_nil_iff]
    simp [Nat.not_lt]
  · intro m
    unfold prevHit
    rw [List.max?_eq_some_iff']
    simp only [List.mem_map, List.mem_filter, decide_eq_true_eq]
    constructor
    · rintro ⟨⟨d, ⟨hd, hlt⟩, hm⟩, hbound⟩
      subst hm
      exact ⟨hlt, ⟨d, hd, rfl⟩,
        fun e he hlt2 => hbound e.frame ⟨e, ⟨he, hlt2⟩, rfl⟩⟩
    · rintro ⟨hfm, ⟨d, hd, hm⟩, hbound⟩
      subst hm
      exact ⟨⟨d, ⟨hd, hfm⟩, rfl⟩,
        fun b hb => by
          obtain ⟨e, ⟨he, hlt⟩, hm⟩ := hb
          subst hm
          exact hbound e he hlt⟩
  · unfold prevHit
    rw [List.max?_eq_none_iff, List.map_eq_nil_iff, List.filter_eq_nil_iff]
    simp [Nat.not_lt]

/-- Witness: §8 scenario, `nextHit(5) = 10` and `prevHit(0) = none`. -/
theorem next_prev_hit_spec_witness :
    nextHit egTable 5 = some 10 ∧ prevHit egTable 0 = none :=
  ⟨((next_prev_hit_spec egTable 5).1 10).2 (by decide),
   (next_prev_hit_spec egTable 0).2.2.2.2 (by decide)⟩

/-- Witness: §8 scenario, `pointQuery(7)` is empty. -/
theorem point_query_spec_witness : pointQuery egTable 7 = [] :=
  (point_query_spec egTable 7).2.2.2 (by decide)

/-! ## Cache helper lemmas -/

theorem ensure_view_fst_none_iff (boxes : String → Bool) (cache : Cache)
    (vid : String) :
    (_ensure_view boxes cache vid).1 = none ↔
      List.lookup vid cache = none ∧ boxes vid = false := by
  unfold _ensure_view
  cases hl : List.lookup vid cache with
  | some e => simp [hl]
  | none =>
    by_cases hb : boxes vid <;> simp [hl, hb]

theorem ensure_view_of_miss_absent (boxes : String → Bool) (cache : Cache)
    (vid : String) (hl : List.lookup vid cache = none)
    (hb : boxes vid = false) :
    _ensure_view boxes cache vid = (none, cache) := by
  unfold _ensure_view
  rw [hl, hb]
  rfl

/-! ## C6: cache hit after success -/

/-- C6: once a resolution of a `video_id` has succeeded, every later
`_ensure_view` call with the same id is a pure cache lookup: it returns
the same view name and the same cache, regardless of the current state of
the backing parquet files (no re-reading or re-validation). -/
theorem resolve_cache_hit (boxes boxes2 : String → Bool) (cache c' : Cache)
    (vid v : String)
    (h : _ensure_view boxes cache vid = (some v, c')) :
    _ensure_view boxes2 c' vid = (some v, c') := by
  unfold _ensure_view at h ⊢
  cases hl : List.lookup vid cache with
  | some e =>
    rw [hl] at h
    simp only [Prod.mk.injEq, Option.some.injEq] at h
    obtain ⟨h1, h2⟩ := h
    subst h2
    rw [hl]
    simp [h1]
  | none =>
    rw [hl] at h
    by_cases hb : boxes vid
    · rw [if_pos hb] at h
      simp only [Prod.mk.injEq, Option.some.injEq] at h
      obtain ⟨h1, h2⟩ := h
      subst h2
      have hlk : List.lookup vid ((vid, (pqName vid, viewName vid)) :: cache) =
          some (pqName vid, viewName vid) := by
        simp [List.lookup]
      rw [hlk]
      simp [h1]
    · rw [if_neg hb] at h
      simp at h

/-- Witness for C6 at a concrete cache state. -/
theorem resolve_cache_hit_witness :
    _ensure_view (fun _ => false)
      [(vidA, (pqName vidA, viewName vidA))] vidA =
      (some (viewName vidA), [(vidA, (pqName vidA, viewName vidA))]) :=
  resolve_cache_hit (fun _ => true) (fun _ => false) [] _ vidA
    (viewName vidA) (by decide)

/-! ## C5: unknown id fails everywhere, no tombstone -/

/-- C5: for a `video_id` whose parquet table does not exist and is not
cached, resolution fails with `NotFound` on every operation and leaves
the cache unchanged (no tombstone), so a later resolution after the
backing table appears succeeds. -/
theorem unknown_video_not_cached (boxes boxes2 : String → Bool)
    (data : String → List (Detection α)) (cache : Cache) (vid : String)
    (hl : List.lookup vid cache = none) (hb : boxes vid = false)
    (hb2 : boxes2 vid = true) :
    _ensure_view boxes cache vid = (none, cache) ∧
    (∀ frame : Int, 0 ≤ frame →
      api_boxes boxes data cache vid frame =
        (Except.error ApiError.notFound, cache)) ∧
    (∀ k : Int, 1 ≤ k → k ≤ 60 →
      api_timeline boxes data cache vid (some k) =
        (Except.error ApiError.notFound, cache)) ∧
    (∀ frame : Int, 0 ≤ frame →
      api_next_hit boxes data cache vid frame =
        (Except.error ApiError.notFound, cache)) ∧
    (∀ frame : Int, 0 ≤ frame →
      api_prev_hit boxes data cache vid frame =
        (Except.error ApiError.notFound, cache)) ∧
    (_ensure_view boxes2 cache vid).1 = some (viewName vid) := by
  have he := ensure_view_of_miss_absent boxes cache vid hl hb
  refine ⟨he, ?_, ?_, ?_, ?_, ?_⟩
  · intro frame hf
    unfold api_boxes
    rw [if_neg (by omega), he]
  · intro k hk1 hk2
    unfold api_timeline
    simp only [Option.getD_some]
    rw [if_neg (by omega), he]
  · intro frame hf
    unfold api_next_hit
    rw [if_neg (by omega), he]
  · intro frame hf
    unfold api_prev_hit
    rw [if_neg (by omega), he]
  · unfold _ensure_view
    rw [hl, hb2]
    rfl

/-- Witness for C5 at a concrete state. -/
theorem unknown_video_not_cached_witness :
    _ensure_view (fun _ => false) [] vidA = (none, []) ∧
    api_boxes (fun _ => false) (fun _ => egTable) [] vidA 0 =
      (Except.error ApiError.notFound, []) ∧
    (_ensure_view (fun _ => true) [] vidA).1 = some (viewName vidA) := by
  have h := unknown_video_not_cached (fun _ => false) (fun _ => true)
    (fun _ => egTable) [] vidA (by decide) (by decide) (by decide)
  exact ⟨h.1, h.2.1 0 (by decide), h.2.2.2.2.2⟩

/-! ## C7: boundary validation -/

/-- C7: a negative `frame` or a `bin_sec` outside `[1, 60]` is rejected as
`InvalidArgument` before any Box Store access (the result is fixed and
the cache untouched, whatever the store contents), an omitted `bin_sec`
defaults to `1`, and `NotFound` is raised exactly for an unknown
`video_id`, never for valid parameters over a known video. -/
theorem boundary_validation (boxes : String → Bool)
    (data : String → List (Detection α)) (cache : Cache) (vid : String) :
    (∀ frame : Int, frame < 0 →
      api_boxes boxes data cache vid frame =
        (Except.error ApiError.invalidArgument, cache)) ∧
    (∀ frame : Int, frame < 0 →
      api_next_hit boxes data cache vid frame =
        (Except.error ApiError.invalidArgument, cache)) ∧
    (∀ frame : Int, frame < 0 →
      api_prev_hit boxes data cache vid frame =
        (Except.error ApiError.invalidArgument, cache)) ∧
    (∀ k : Int, k < 1 ∨ 60 < k →
      api_timeline boxes data cache vid (some k) =
        (Except.error ApiError.invalidArgument, cache)) ∧
    api_timeline boxes data cache vid none =
      api_timeline boxes data cache vid (some 1) ∧
    (∀ frame : Int, 0 ≤ frame →
      ((api_boxes boxes data cache vid frame).1 =
          Except.error ApiError.notFound ↔
        List.lookup vid cache = none ∧ boxes vid = false)) ∧
    (∀ k : Int, 1 ≤ k → k ≤ 60 →
      ((api_timeline boxes data cache vid (some k)).1 =
          Except.error ApiError.notFound ↔
        List.lookup vid cache = none ∧ boxes vid = false)) := by
  refine ⟨?_, ?_, ?_, ?_, rfl, ?_, ?_⟩
  · intro frame hf
    unfold api_boxes
    rw [if_pos hf]
  · intro frame hf
    unfold api_next_hit
    rw [if_pos hf]
  · intro frame hf
    unfold api_prev_hit
    rw [if_pos hf]
  · intro k hk
    unfold api_timeline
    simp only [Option.getD_some]
    rw [if_pos hk]
  · intro frame hf
    rw [← ensure_view_fst_none_iff boxes cache vid]
    unfold api_boxes
    rw [if_neg (by omega)]
    rcases he : _ensure_view boxes cache vid with ⟨o, c⟩
    cases o <;> simp
  · intro k hk1 hk2
    rw [← ensure_view_fst_none_iff boxes cache vid]
    unfold api_timeline
    simp only [Option.getD_some]
    rw [if_neg (by omega)]
    rcases he : _ensure_view boxes cache vid with ⟨o, c⟩
    cases o <;> simp

/-- Witness for C7 at concrete inputs. -/
theorem boundary_validation_witness :
    api_boxes (fun _ => true) (fun _ => egTable) [] vidA (-1) =
      (Except.error ApiError.invalidArgument, []) ∧
    api_timeline (fun _ => true) (fun _ => egTable) [] vidA (some 61) =
      (Except.error ApiError.invalidArgument, []) ∧
    ¬ (api_boxes (fun _ => true) (fun _ => egTable) [] vidA 0).1 =
        Except.error ApiError.notFound := by
  have h := boundary_validation (fun _ => true) (fun _ => egTable) [] vidA
  refine ⟨h.1 (-1) (by omega), h.2.2.2.1 61 (by omega), ?_⟩
  intro hcon
  exact absurd ((h.2.2.2.2.2.1 0 (by omega)).1 hcon).2 (by decide)

/-! ## C9: view-name collisions -/

/-- C9: the map from `video_id` to the derived view name is not
injective: any two ids that agree after replacing every `-` and `.` by
`_` get the same view name, and the distinct ids `"a-b"` and `"a.b"`
collide. -/
theorem view_name_collision :
    (∀ v1 v2 : String, normId v1 = normId v2 → viewName v1 = viewName v2) ∧
    viewName exDash = viewName exDot ∧ exDash ≠ exDot := by
  refine ⟨?_, by decide, by decide⟩
  intro v1 v2 h
  have hd : v1.data.map replCh = v2.data.map replCh :=
    congrArg String.data h
  apply String.ext
  show ((vPrefix ++ v1).data.map replCh) = ((vPrefix ++ v2).data.map replCh)
  rw [String.data_append, String.data_append, List.map_append,
    List.map_append, hd]

/-- Witness for C9: the universal part applied to the colliding pair. -/
theorem view_name_collision_witness : viewName exDash = viewName exDot :=
  view_name_collision.1 exDash exDot (by decide)

/-! ## Catalog helper lemmas -/

theorem charListLe_total : ∀ (as bs : List Char),
    charListLe as bs = true ∨ charListLe bs as = true
  | [], _ => Or.inl rfl
  | _ :: _, [] => Or.inr rfl
  | a :: as, b :: bs => by
    rcases lt_trichotomy a b with h | h | h
    · left
      simp [charListLe, h]
    · subst h
      rcases charListLe_total as bs with ih | ih <;>
        simp [charListLe, lt_irrefl, ih]
    · right
      simp [charListLe, h]

theorem charListLe_trans : ∀ (as bs cs : List Char),
    charListLe as bs = true → charListLe bs cs = true →
    charListLe as cs = true
  | [], _, _ => fun _ _ => rfl
  | _ :: _, [], _ => fun h _ => by simp [charListLe] at h
  | _ :: _, _ :: _, [] => fun _ h => by simp [charListLe] at h
  | a :: as, b :: bs, c :: cs => fun h1 h2 => by
    rcases lt_trichotomy a b with hab | hab | hab
    · rcases lt_trichotomy b c with hbc | hbc | hbc
      · simp [charListLe, lt_trans hab hbc]
      · subst hbc
        simp [charListLe, hab]
      · rw [charListLe, if_neg (lt_asymm hbc), if_pos hbc] at h2
        exact absurd h2 (by simp)
    · subst hab
      rcases lt_trichotomy a c with hac | hac | hac
      · simp [charListLe, hac]
      · subst hac
        rw [charListLe, if_neg (lt_irrefl a), if_neg (lt_irrefl a)] at h1 h2 ⊢
        exact charListLe_trans as bs cs h1 h2
      · rw [charListLe, if_neg (lt_asymm hac), if_pos hac] at h2
        exact absurd h2 (by simp)
    · rw [charListLe, if_neg (lt_asymm hab), if_pos hab] at h1
      exact absurd h1 (by simp)

theorem mem_video_list (dirExists : Bool) (names : List String)
    (e : VideoEntry) (he : e ∈ _get_video_list dirExists names) :
    ∃ n ∈ names, matchesMp4 n = true ∧
      e = ⟨stem n, n, urlPrefix ++ n, FPS⟩ := by
  cases dirExists with
  | false => exact absurd he (by simp [_get_video_list])
  | true =>
    unfold _get_video_list at he
    rw [if_pos rfl] at he
    obtain ⟨n, hn, hne⟩ := List.mem_map.1 he
    have hnf : n ∈ names.filter matchesMp4 :=
      (List.perm_insertionSort pyLe _).mem_iff.1 hn
    obtain ⟨hnn, hnm⟩ := List.mem_filter.1 hnf
    exact ⟨n, hnn, hnm, hne.symm⟩

theorem map_file_video_list (l : List String) :
    (l.map (fun n =>
      (⟨stem n, n, urlPrefix ++ n, FPS⟩ : VideoEntry))).map
        (fun e => e.file) = l := by
  induction l with
  | nil => rfl
  | cons n l ih => simp [ih]

/-! ## C8: catalog listing (corrected: order is by file name, not id) -/

/-- C8 counterexample: for the directory `{"a!.mp4", "a.mp4"}` the catalog
lists the identifiers as `["a!", "a"]`, which is not in lexicographic
identifier order, because the code sorts by full file name and
`'!' < '.'` makes `"a!.mp4"` precede `"a.mp4"` while `"a"` precedes
`"a!"`. -/
theorem video_list_id_order_counterexample :
    ((_get_video_list true [nameBang, nameA]).map
      (fun e => e.video_id)) = [idBang, idA] ∧
    ¬ List.Sorted pyLe [idBang, idA] := by
  constructor
  · decide
  · intro h
    have : pyLe idBang idA := List.rel_of_sorted_cons h idA (by decide)
    exact absurd this (by decide)

/-- C8 (amended): one entry per `.mp4` file with identifier the filename
stem, ordered lexicographically by file name (deterministic); empty or
missing directory gives the empty sequence, not an error. -/
theorem video_list_spec (names : List String) :
    _get_video_list false names = [] ∧
    List.Sorted pyLe ((_get_video_list true names).map (fun e => e.file)) ∧
    ((_get_video_list true names).map (fun e => e.file)).Perm
      (names.filter matchesMp4) ∧
    ∀ e ∈ _get_video_list true names,
      e.video_id = stem e.file ∧ e.url = urlPrefix ++ e.file ∧
        e.fps = FPS := by
  haveI : IsTotal String pyLe :=
    ⟨fun a b => charListLe_total a.data b.data⟩
  haveI : IsTrans String pyLe :=
    ⟨fun a b c => charListLe_trans a.data b.data c.data⟩
  have hmap : (_get_video_list true names).map (fun e => e.file) =
      List.insertionSort pyLe (names.filter matchesMp4) := by
    unfold _get_video_list
    rw [if_pos rfl]
    exact map_file_video_list _
  refine ⟨rfl, ?_, ?_, ?_⟩
  · rw [hmap]
    exact List.sorted_insertionSort pyLe _
  · rw [hmap]
    exact List.perm_insertionSort pyLe _
  · intro e he
    obtain ⟨n, _, _, hne⟩ := mem_video_list true names e he
    subst hne
    exact ⟨rfl, rfl, rfl⟩

/-- Witness for C8 (amended) at a concrete directory. -/
theorem video_list_spec_witness :
    _get_video_list false [nameA] = [] ∧
    (VideoEntry.mk idA nameA (urlPrefix ++ nameA) FPS).video_id =
      stem (VideoEntry.mk idA nameA (urlPrefix ++ nameA) FPS).file :=
  ⟨(video_list_spec [nameA]).1,
   ((video_list_spec [nameA]).2.2.2
      ⟨idA, nameA, urlPrefix ++ nameA, FPS⟩ (by decide)).1⟩

/-! ## C10: only `.mp4` files are listed -/

/-- C10: a file whose name does not end in `".mp4"` never produces an
entry of the catalog listing. -/
theorem non_mp4_never_listed (dirExists : Bool) (names : List String)
    (nm : String) (h : ¬ matchesMp4 nm = true) :
    ∀ e ∈ _get_video_list dirExists names, e.file ≠ nm := by
  intro e he
  obtain ⟨n, _, hnm, hne⟩ := mem_video_list dirExists names e he
  rw [hne]
  show n ≠ nm
  intro hcon
  subst hcon
  exact h hnm

/-- Witness for C10: a directory holding one `.avi` and one `.mp4`. -/
theorem non_mp4_never_listed_witness :
    (VideoEntry.mk idA nameA (urlPrefix ++ nameA) FPS).file ≠ nameAvi :=
  non_mp4_never_listed true [nameA, nameAvi] nameAvi (by decide)
    ⟨idA, nameA, urlPrefix ++ nameA, FPS⟩ (by decide)

/-! ## Timeline helper lemmas -/

theorem foldr_max_mem : ∀ (l : List Nat), l ≠ [] → l.foldr max 0 ∈ l
  | [], h => absurd rfl h
  | [a], _ => by simp
  | a :: b :: l, _ => by
    rcases Nat.le_total ((b :: l).foldr max 0) a with h | h
    · show max a ((b :: l).foldr max 0) ∈ a :: b :: l
      rw [Nat.max_eq_left h]
      exact List.mem_cons_self a _
    · show max a ((b :: l).foldr max 0) ∈ a :: b :: l
      rw [Nat.max_eq_right h]
      exact List.mem_cons_of_mem a (foldr_max_mem (b :: l) (by simp))

theorem le_foldr_max (l : List Nat) (x : Nat) (hx : x ∈ l) :
    x ≤ l.foldr max 0 := by
  induction l with
  | nil => exact absurd hx (List.not_mem_nil x)
  | cons a l ih =>
    rcases List.mem_cons.1 hx with h | h
    · subst h
      exact Nat.le_max_left x _
    · exact Nat.le_trans (ih h) (Nat.le_max_right a _)

theorem countInBin_maxBin_pos (t : List (Detection α)) (k : Nat)
    (ht : t ≠ []) : 0 < countInBin t k (maxBin t k) := by
  have hmem : maxBin t k ∈ t.map (binOf k) :=
    foldr_max_mem (t.map (binOf k)) (by simpa using ht)
  obtain ⟨d, hd, hbin⟩ := List.mem_map.1 hmem
  have : d ∈ t.filter (fun e => binOf k e == maxBin t k) :=
    List.mem_filter.2 ⟨hd, by simp [hbin]⟩
  rw [countInBin]
  exact List.length_pos.2 (List.ne_nil_of_mem this)

theorem binOf_le_maxBin (t : List (Detection α)) (k : Nat)
    (d : Detection α) (hd : d ∈ t) : binOf k d ≤ maxBin t k :=
  le_foldr_max (t.map (binOf k)) (binOf k d)
    (List.mem_map.2 ⟨d, hd, rfl⟩)

theorem lookup_bin_filterMap (t : List (Detection α)) (k : Nat)
    (ns : List Nat) (i : Nat) :
    List.lookup i (ns.filterMap (fun j =>
        if countInBin t k j = 0 then none
        else some (j, countInBin t k j))) =
      if i ∈ ns ∧ countInBin t k i ≠ 0 then some (countInBin t k i)
      else none := by
  induction ns with
  | nil => simp
  | cons n ns ih =>
    by_cases hc : countInBin t k n = 0
    · by_cases hi : i = n
      · subst hi
        simp [List.filterMap_cons, hc, ih]
      · simp [List.filterMap_cons, hc, ih, hi]
    · by_cases hi : i = n
      · subst hi
        simp [List.filterMap_cons, hc, List.lookup]
      · have hne : (i == n) = false := by simp [hi]
        simp [List.filterMap_cons, hc, List.lookup, ih, hi, hne]

theorem groupedRows_getLast (t : List (Detection α)) (k : Nat)
    (ht : t ≠ []) :
    (groupedRows t k).getLast? =
      some (maxBin t k, countInBin t k (maxBin t k)) := by
  have hpos := countInBin_maxBin_pos t k ht
  unfold groupedRows
  rw [List.range_succ, List.filterMap_append]
  have : List.filterMap (fun i =>
      if countInBin t k i = 0 then none
      else some (i, countInBin t k i)) [maxBin t k] =
      [(maxBin t k, countInBin t k (maxBin t k))] := by
    simp [List.filterMap_cons_some, Nat.pos_iff_ne_zero.1 hpos]
  rw [this, List.getLast?_concat]

theorem timelineCounts_eq_map (t : List (Detection α)) (k : Nat)
    (ht : t ≠ []) :
    timelineCounts t k =
      (List.range (maxBin t k + 1)).map (fun i => countInBin t k i) := by
  unfold timelineCounts
  rw [groupedRows_getLast t k ht]
  refine List.map_congr_left ?_
  intro i hi
  rw [groupedRows, lookup_bin_filterMap]
  by_cases hc : countInBin t k i = 0
  · rw [if_neg (by simp [hc])]
    simp [hc]
  · rw [if_pos ⟨hi, hc⟩]
    rfl

theorem sum_map_add_nat (l : List Nat) (f g : Nat → Nat) :
    (l.map (fun i => f i + g i)).sum = (l.map f).sum + (l.map g).sum := by
  induction l with
  | nil => rfl
  | cons a l ih =>
    simp only [List.map_cons, List.sum_cons, ih]
    omega

theorem sum_indicator (n x : Nat) (hx : x < n) :
    ((List.range n).map (fun i => if x = i then 1 else 0)).sum = 1 := by
  induction n with
  | zero => omega
  | succ n ih =>
    rw [List.range_succ, List.map_append, List.sum_append]
    by_cases h : x = n
    · subst h
      have hz : ((List.range x).map
          (fun i => if x = i then 1 else 0)).sum = 0 := by
        apply List.sum_eq_zero
        intro y hy
        obtain ⟨i, hi, hiy⟩ := List.mem_map.1 hy
        have : x ≠ i := by
          have := List.mem_range.1 hi
          omega
        simp [this] at hiy
        omega
      simp [hz]
    · have hx2 : x < n := by omega
      rw [ih hx2]
      simp [h]

theorem countInBin_cons (d : Detection α) (t : List (Detection α))
    (k i : Nat) :
    countInBin (d :: t) k i =
      countInBin t k i + (if binOf k d = i then 1 else 0) := by
  unfold countInBin
  rw [List.filter_cons]
  by_cases h : binOf k d = i
  · simp [h]
  · simp [h]

theorem sum_range_countInBin (t : List (Detection α)) (k n : Nat)
    (h : ∀ d ∈ t, binOf k d < n) :
    ((List.range n).map (fun i => countInBin t k i)).sum = t.length := by
  induction t with
  | nil =>
    have : ∀ i, countInBin ([] : List (Detection α)) k i = 0 := by
      intro i
      rfl
    simp [this]
  | cons d t ih =>
    have hmap : (List.range n).map (fun i => countInBin (d :: t) k i) =
        (List.range n).map (fun i =>
          countInBin t k i + (if binOf k d = i then 1 else 0)) :=
      List.map_congr_left (fun i _ => countInBin_cons d t k i)
    rw [hmap, sum_map_add_nat,
      ih (fun e he => h e (List.mem_cons_of_mem d he)),
      sum_indicator n (binOf k d) (h d (List.mem_cons_self d t))]
    simp

/-! ## C1: dense timeline bins -/

/-- C1: for `1 ≤ bin_sec ≤ 60`, the timeline counts array holds at index
`i` the number of detection rows with `floor(floor(frame/fps)/bin_sec) =
i`, its length is the maximum occupied bin plus one when the table is
non-empty (gap bins zero-filled, sum equal to the total detection count),
and it is the empty sequence for an empty table. -/
theorem timeline_bins_dense (t : List (Detection α)) (k : Nat)
    (hk : 1 ≤ k ∧ k ≤ 60) :
    (t = [] → timelineCounts t k = []) ∧
    (t ≠ [] →
      (timelineCounts t k).length = maxBin t k + 1 ∧
      0 < countInBin t k (maxBin t k) ∧
      (∀ i (h : i < (timelineCounts t k).length),
        (timelineCounts t k).get ⟨i, h⟩ = countInBin t k i) ∧
      (timelineCounts t k).sum = t.length) := by
  refine ⟨?_, ?_⟩
  · intro h
    subst h
    rfl
  · intro ht
    have he := timelineCounts_eq_map t k ht
    refine ⟨?_, countInBin_maxBin_pos t k ht, ?_, ?_⟩
    · rw [he, List.length_map, List.length_range]
    · intro i h
      have h2 : i < maxBin t k + 1 := by
        rw [he, List.length_map, List.length_range] at h
        exact h
      rw [List.get_of_eq he ⟨i, h⟩, List.get_eq_getElem]
      simp [List.getElem_map, List.getElem_range]
    · rw [he]
      refine sum_range_countInBin t k (maxBin t k + 1) ?_
      intro d hd
      have := binOf_le_maxBin t k d hd
      omega

/-- Witness for C1: the §8 scenario with `bin_sec = 1` gives `[3]`. -/
theorem timeline_bins_dense_witness :
    timelineCounts egTable 1 = [3] ∧
    (timelineCounts egTable 1).length = maxBin egTable 1 + 1 ∧
    (timelineCounts egTable 1).sum = egTable.length :=
  ⟨by decide,
   ((timeline_bins_dense egTable 1 (by decide)).2 (by decide)).1,
   ((timeline_bins_dense egTable 1 (by decide)).2 (by decide)).2.2.2⟩

/-! ## Range query helper lemmas -/

theorem flatMap_eq_nil (l : List Nat) (g : Nat → List (Detection α))
    (h : ∀ f ∈ l, g f = []) : l.flatMap g = [] := by
  induction l with
  | nil => rfl
  | cons n l ih =>
    rw [List.flatMap_cons, h n (by simp), List.nil_append]
    exact ih (fun f hf => h f (by simp [hf]))

theorem flatMap_congr_mem (l : List Nat)
    (g g' : Nat → List (Detection α)) (h : ∀ f ∈ l, g f = g' f) :
    l.flatMap g = l.flatMap g' := by
  induction l with
  | nil => rfl
  | cons n l ih =>
    rw [List.flatMap_cons, List.flatMap_cons, h n (by simp),
      ih (fun f hf => h f (by simp [hf]))]

theorem pointQuery_cons_ne (d : Detection α) (t : List (Detection α))
    (f : Nat) (h : d.frame ≠ f) :
    pointQuery (d :: t) f = pointQuery t f := by
  unfold pointQuery
  rw [List.filter_cons, if_neg (by simp [h])]

theorem pointQuery_cons_self (d : Detection α) (t : List (Detection α)) :
    pointQuery (d :: t) d.frame =
      List.orderedInsert boxLe d (pointQuery t d.frame) := by
  unfold pointQuery
  rw [List.filter_cons, if_pos (by simp)]
  rfl

theorem orderedInsert_append_notLe (x : Detection α)
    (P R : List (Detection α)) (h : ∀ y ∈ P, ¬ lexLe x y) :
    List.orderedInsert lexLe x (P ++ R) =
      P ++ List.orderedInsert lexLe x R := by
  induction P with
  | nil => rfl
  | cons y P ih =>
    have hy : ¬ lexLe x y := h y (by simp)
    rw [List.cons_append, List.orderedInsert, if_neg hy,
      ih (fun z hz => h z (by simp [hz])), List.cons_append]

theorem orderedInsert_mid (x : Detection α) (M S : List (Detection α))
    (hM : ∀ y ∈ M, y.frame = x.frame)
    (hS : ∀ z ∈ S, x.frame < z.frame) :
    List.orderedInsert lexLe x (M ++ S) =
      (List.orderedInsert boxLe x M) ++ S := by
  induction M with
  | nil =>
    rw [List.nil_append]
    cases S with
    | nil => rfl
    | cons z S =>
      have hz : lexLe x z := Or.inl (hS z (by simp))
      show (if lexLe x z then x :: z :: S
        else z :: List.orderedInsert lexLe x S) = [x] ++ z :: S
      rw [if_pos hz]
      rfl
  | cons y M ih =>
    have hy : y.frame = x.frame := hM y (by simp)
    by_cases hb : boxLe x y
    · have hl : lexLe x y := Or.inr ⟨hy.symm, hb⟩
      show (if lexLe x y then x :: y :: (M ++ S)
          else y :: List.orderedInsert lexLe x (M ++ S)) =
        (if boxLe x y then x :: y :: M
          else y :: List.orderedInsert boxLe x M) ++ S
      rw [if_pos hl, if_pos hb]
      rfl
    · have hl : ¬ lexLe x y := by
        intro hcon
        rcases hcon with h1 | h2
        · rw [hy] at h1
          exact lt_irrefl x.frame h1
        · exact hb h2.2
      show (if lexLe x y then x :: y :: (M ++ S)
          else y :: List.orderedInsert lexLe x (M ++ S)) =
        (if boxLe x y then x :: y :: M
          else y :: List.orderedInsert boxLe x M) ++ S
      rw [if_neg hl, if_neg hb,
        ih (fun z hz => hM z (by simp [hz]))]
      rfl

theorem sortRange_eq (a b : Nat) : ∀ t : List (Detection α),
    List.insertionSort lexLe (t.filter (inRange a b)) =
      (List.range' a (b + 1 - a)).flatMap (pointQuery t) := by
  intro t
  induction t with
  | nil => exact (flatMap_eq_nil _ _ (fun f _ => rfl)).symm
  | cons d t ih =>
    by_cases hd : inRange a b d = true
    · have hab : a ≤ d.frame ∧ d.frame ≤ b := by
        simpa [inRange] using hd
      have hsplit : List.range' a (b + 1 - a) =
          List.range' a (d.frame - a) ++
            (d.frame :: List.range' (d.frame + 1) (b - d.frame)) := by
        have h1 := List.range'_append a (d.frame - a) (b + 1 - d.frame) 1
        rw [show a + 1 * (d.frame - a) = d.frame by omega,
          show b + 1 - d.frame + (d.frame - a) = b + 1 - a by omega] at h1
        rw [← h1, show b + 1 - d.frame = (b - d.frame) + 1 by omega]
        rfl
      have hfc : (d :: t).filter (inRange a b) =
          d :: t.filter (inRange a b) := by
        rw [List.filter_cons, if_pos hd]
      have hP : (List.range' a (d.frame - a)).flatMap
            (pointQuery (d :: t)) =
          (List.range' a (d.frame - a)).flatMap (pointQuery t) := by
        refine flatMap_congr_mem _ _ _ ?_
        intro f hf
        obtain ⟨i, hi, hfi⟩ := List.mem_range'.1 hf
        exact pointQuery_cons_ne d t f (by omega)
      have hS : (List.range' (d.frame + 1) (b - d.frame)).flatMap
            (pointQuery (d :: t)) =
          (List.range' (d.frame + 1) (b - d.frame)).flatMap
            (pointQuery t) := by
        refine flatMap_congr_mem _ _ _ ?_
        intro f hf
        obtain ⟨i, hi, hfi⟩ := List.mem_range'.1 hf
        exact pointQuery_cons_ne d t f (by omega)
      have hPy : ∀ y ∈ (List.range' a (d.frame - a)).flatMap
          (pointQuery t), ¬ lexLe d y := by
        intro y hy
        obtain ⟨f, hf, hyf⟩ := List.mem_flatMap.1 hy
        obtain ⟨i, hi, hfi⟩ := List.mem_range'.1 hf
        have hyfr : y.frame = f := (mem_pointQuery_iff.1 hyf).2
        intro hcon
        rcases hcon with h1 | h2
        · omega
        · omega
      have hMy : ∀ y ∈ pointQuery t d.frame, y.frame = d.frame :=
        fun y hy => (mem_pointQuery_iff.1 hy).2
      have hSy : ∀ z ∈ (List.range' (d.frame + 1) (b - d.frame)).flatMap
          (pointQuery t), d.frame < z.frame := by
        intro z hz
        obtain ⟨f, hf, hzf⟩ := List.mem_flatMap.1 hz
        obtain ⟨i, hi, hfi⟩ := List.mem_range'.1 hf
        have := (mem_pointQuery_iff.1 hzf).2
        omega
      rw [hfc]
      rw [show List.insertionSort lexLe (d :: t.filter (inRange a b)) =
        List.orderedInsert lexLe d
          (List.insertionSort lexLe (t.filter (inRange a b))) from rfl]
      rw [ih, hsplit, List.flatMap_append, List.flatMap_cons,
        List.flatMap_append, List.flatMap_cons, hP, hS,
        pointQuery_cons_self,
        orderedInsert_append_notLe d _ _ hPy,
        orderedInsert_mid d _ _ hMy hSy]
    · have hfc : (d :: t).filter (inRange a b) =
          t.filter (inRange a b) := by
        rw [List.filter_cons, if_neg (by simp [hd])]
      have hnr : ¬ (a ≤ d.frame ∧ d.frame ≤ b) := by
        intro hcon
        exact hd (by simp [inRange, hcon.1, hcon.2])
      rw [hfc, ih]
      refine flatMap_congr_mem _ _ _ ?_
      intro f hf
      obtain ⟨i, hi, hfi⟩ := List.mem_range'.1 hf
      exact (pointQuery_cons_ne d t f (by omega)).symm

/-! ## C4: range query as concatenation of point queries -/

/-- C4: `rangeQuery(a, b)` equals the concatenation of `pointQuery(f)`
for every `f` from `a` to `b` inclusive (which is sorted by
`(frame, box_index)`), and in particular is empty, with no error, when
`a > b`. -/
theorem range_query_concat (t : List (Detection α)) (a b : Nat) :
    rangeQuery t a b =
      (List.range' a (b + 1 - a)).flatMap (pointQuery t) ∧
    (b < a → rangeQuery t a b = []) := by
  have h := sortRange_eq a b t
  refine ⟨h, fun hba => ?_⟩
  rw [show rangeQuery t a b =
    (List.range' a (b + 1 - a)).flatMap (pointQuery t) from h,
    show b + 1 - a = 0 by omega]
  rfl

/-- Witness for C4: `a > b` gives the empty result, and the §8 scenario
range `[0, 10]` returns the three rows in `(frame, box_index)` order. -/
theorem range_query_concat_witness :
    rangeQuery egTable 2 1 = [] ∧
    rangeQuery egTable 0 10 = egTable :=
  ⟨(range_query_concat egTable 2 1).2 (by decide), by decide⟩
